import Mathlib

/-!
PackageManager (CloudCompare Python plugin): list parsing, search filter, handlers

A shallow embedding of `src/src/PackageManager.cpp`.

* `QString` is a list of characters.
* The Qt library calls the source makes (`QString::splitRef`, `QString::contains`,
  `QRegExp::indexIn` / `cap`, `QTableWidget::setRowCount` / `setItem` / `item` /
  `setRowHidden`) are modelled after their documented behaviour. For `QRegExp` this is
  the rule that quantifiers are greedy: each takes as much text as it can, the earlier
  ones first, and gives text back only when the rest of the pattern fails.
* A process run is one that starts and finishes; a process that fails to start is not
  modelled.
* The external `pip` subprocess and the modal dialogs are inputs: an environment maps
  the launches made so far to the outcome of the latest one, and the dialog answers
  are arguments of the handlers.
-/

set_option autoImplicit false

namespace PackageManager

/-! ## Strings -/

/-- A `QString`, as its sequence of characters. -/
abbrev QString := List Char

/-- `QChar::isSpace`: the ASCII blanks U+0009..U+000D and U+0020, U+0085, U+00A0 and the
Unicode separator categories Zs, Zl, Zp. -/
def isSpace (c : Char) : Bool :=
  let n := c.toNat
  n == 0x20 || (0x09 ≤ n && n ≤ 0x0D) || n == 0x85 || n == 0xA0 || n == 0x1680 ||
    (0x2000 ≤ n && n ≤ 0x200A) || n == 0x2028 || n == 0x2029 || n == 0x202F ||
    n == 0x205F || n == 0x3000

/-- The class `\S` of the pattern: any character that is not a space. -/
def isNonSpace (c : Char) : Bool := !isSpace c

/-- `QString::splitRef(sep)` for a one-character separator, with the default
`KeepEmptyParts`: the empty string splits into one empty part and every separator
starts a new part. -/
def splitRef (sep : Char) : QString → List QString
  | [] => [[]]
  | c :: cs =>
    if c = sep then [] :: splitRef sep cs
    else
      match splitRef sep cs with
      | [] => [[c]]
      | hd :: tl => (c :: hd) :: tl

/-- `QString::contains(str)` with the default `Qt::CaseSensitive`: some suffix of the
text starts with `str`, characters compared exactly. -/
def contains (text str : QString) : Bool :=
  text.tails.any (fun t => str.isPrefixOf t)

/-! ## QRegExp, for patterns that are a sequence of quantified character classes -/

/-- How often a character class may repeat: exactly once, `?` or `*`. -/
inductive Quant where
  | one
  | opt
  | star
  deriving DecidableEq, Repr

/-- One piece of a pattern: a character class with a quantifier, inside a capturing
group `( )` or a non-capturing group `(?: )`. -/
structure Atom where
  cls : Char → Bool
  quant : Quant
  capturing : Bool

/-- What a successful match reports: its length and the texts of the capturing groups,
in the order of their opening brackets. -/
structure Match where
  length : Nat
  groups : List QString
  deriving DecidableEq, Repr

/-- The fewest characters the quantifier accepts. -/
def Quant.lo : Quant → Nat
  | .one => 1
  | .opt => 0
  | .star => 0

/-- The most characters the quantifier can take at the start of `s`. -/
def Atom.hi (a : Atom) (s : QString) : Nat :=
  match a.quant with
  | .one => min 1 (s.takeWhile a.cls).length
  | .opt => min 1 (s.takeWhile a.cls).length
  | .star => (s.takeWhile a.cls).length

/-- Greedy choice with backtracking: give the atom `n` characters of `s`, then `n - 1`,
down to `lo`, and keep the first choice the rest of the pattern `k` accepts. -/
def tryLen (k : QString → Option Match) (capturing : Bool) (s : QString) (lo : Nat) :
    Nat → Option Match
  | 0 =>
    if lo = 0 then
      (k s).map fun m => ⟨m.length, if capturing then [] :: m.groups else m.groups⟩
    else none
  | n + 1 =>
    if lo ≤ n + 1 then
      match k (s.drop (n + 1)) with
      | some m =>
        some ⟨n + 1 + m.length,
          if capturing then s.take (n + 1) :: m.groups else m.groups⟩
      | none => tryLen k capturing s lo n
    else none

/-- Match the pattern at the start of `s`; quantifiers are greedy, as those of QRegExp
are by default (`setMinimal` is not called in the source). -/
def matchHere : List Atom → QString → Option Match
  | [] => fun _ => some ⟨0, []⟩
  | a :: rest => fun s => tryLen (matchHere rest) a.capturing s a.quant.lo (a.hi s)

/-- Search the offsets `pos`, `pos + 1`, ... for the first one where the pattern matches,
`s` being the text from `pos` on. -/
def searchFrom (pat : List Atom) : Nat → QString → Option (Nat × QString × Match)
  | pos, [] => (matchHere pat []).map fun m => (pos, [], m)
  | pos, c :: cs =>
    match matchHere pat (c :: cs) with
    | some m => some (pos, c :: cs, m)
    | none => searchFrom pat (pos + 1) cs

/-- A `QRegExp` object: its pattern and the captured texts of the last `indexIn`
(`cap(0)` is the whole match). -/
structure QRegExp where
  pattern : List Atom
  capturedTexts : List QString

/-- `QRegExp::indexIn(str)`: the position of the first match, or -1; the captured texts
are kept for `cap`. -/
def QRegExp.indexIn (re : QRegExp) (str : QString) : Int × QRegExp :=
  match searchFrom re.pattern 0 str with
  | some (pos, rest, m) => ((pos : Int), { re with capturedTexts := rest.take m.length :: m.groups })
  | none => (-1, { re with capturedTexts := [] })

/-- `QRegExp::cap(nth)`: the text of group `nth`, empty when there is none. -/
def QRegExp.cap (re : QRegExp) (nth : Nat) : QString :=
  re.capturedTexts.getD nth []

/-- The pattern `(\S*)(?:\s*)(\S*)(?:\s*)(\S?)` of `refreshInstalledPackagesList`. -/
def listPattern : List Atom :=
  [ ⟨isNonSpace, .star, true⟩, ⟨isSpace, .star, false⟩, ⟨isNonSpace, .star, true⟩,
    ⟨isSpace, .star, false⟩, ⟨isNonSpace, .opt, true⟩ ]

/-- The object `const QRegExp regex(...)` before any match. -/
def listRegex : QRegExp := ⟨listPattern, []⟩

/-! ## The table widget -/

/-- A `QTableWidgetItem`: its text and whether the flag `Qt::ItemIsSelectable` is set. -/
structure QTableWidgetItem where
  text : QString
  selectable : Bool
  deriving DecidableEq, Repr

/-- One row of the two-column view (`setColumnCount(2)` in the constructor): the item of
column 0 (package name), the item of column 1 (version), `none` for a cell without an
item, and whether the row is hidden. -/
structure TableRow where
  name : Option QTableWidgetItem
  version : Option QTableWidgetItem
  hidden : Bool
  deriving DecidableEq, Repr

/-- The `QTableWidget` `installedPackagesView`. -/
structure QTableWidget where
  rows : List TableRow
  deriving DecidableEq, Repr

namespace QTableWidget

/-- A row as `setRowCount` inserts it: no items, not hidden. -/
def blankRow : TableRow := ⟨none, none, false⟩

/-- Number of rows, `rowCount()`. -/
def rowCount (t : QTableWidget) : Nat := t.rows.length

/-- Number of columns, `columnCount()`: the constructor sets it to 2 and nothing changes
it. -/
def columnCount (_t : QTableWidget) : Nat := 2

/-- The call `setRowCount(n)`: rows past `n` are removed, missing rows are appended
without items; the rows kept are not touched. -/
def setRowCount (n : Nat) (t : QTableWidget) : QTableWidget :=
  ⟨t.rows.take n ++ List.replicate (n - t.rows.length) blankRow⟩

/-- Put `item` in column `col` of a row. -/
def setCell (col : Nat) (item : QTableWidgetItem) (r : TableRow) : TableRow :=
  if col = 0 then { r with name := some item }
  else if col = 1 then { r with version := some item }
  else r

/-- The call `setItem(row, col, item)`: replaces the item of an existing cell, and does
nothing for a cell outside the table. -/
def setItem (row col : Nat) (item : QTableWidgetItem) (t : QTableWidget) : QTableWidget :=
  match t.rows[row]? with
  | some r => ⟨t.rows.set row (setCell col item r)⟩
  | none => t

/-- The call `item(row, col)`: the item of the cell, `none` (a null pointer) when the
cell has none or lies outside the table. -/
def item (t : QTableWidget) (row col : Nat) : Option QTableWidgetItem :=
  match t.rows[row]? with
  | some r => if col = 0 then r.name else if col = 1 then r.version else none
  | none => none

/-- The call `setRowHidden(row, hide)`. -/
def setRowHidden (row : Nat) (hide : Bool) (t : QTableWidget) : QTableWidget :=
  match t.rows[row]? with
  | some r => ⟨t.rows.set row { r with hidden := hide }⟩
  | none => t

/-- The texts of the two cells of every row, top to bottom. -/
def cellTexts (t : QTableWidget) : List (Option QString × Option QString) :=
  t.rows.map fun r => (r.name.map (·.text), r.version.map (·.text))

end QTableWidget

/-! ## The widget and its subprocess -/

/-- `QProcess::ExitStatus`. -/
inductive ExitStatus where
  | NormalExit
  | CrashExit
  deriving DecidableEq, Repr

/-- What one run of the interpreter subprocess gives back once it has finished. -/
structure ProcessRun where
  exitStatus : ExitStatus
  exitCode : Int
  output : QString

/-- The world outside the widget: given the argument vectors of all launches so far, the
last one being the run in question, the outcome of that run. -/
abbrev Env := List (List QString) → ProcessRun

/-- A message shown or logged on a failure path. -/
inductive Report where
  | critical
  | error (msg : String)
  | warning
  deriving DecidableEq, Repr

/-- The state of a `PackageManager` widget: the table, the two buttons, the search bar's
text, the state of `m_pythonProcess` and, as a trace, the argument vectors of every
start of the process and the failure reports made. -/
structure State where
  installedPackagesView : QTableWidget
  installBtnEnabled : Bool
  uninstallBtnEnabled : Bool
  searchBar : QString
  running : Bool
  exitStatus : ExitStatus
  exitCode : Int
  launched : List (List QString)
  reports : List Report

/-- The slot `setBusy(isBusy)`. -/
def setBusy (isBusy : Bool) (pm : State) : State :=
  { pm with installBtnEnabled := !isBusy, uninstallBtnEnabled := !isBusy }

/-- The slot `handleSelectionChanged()`, `selectedItems` being what the view's
`selectedItems()` returns. -/
def handleSelectionChanged (selectedItems : List QTableWidgetItem) (pm : State) : State :=
  { pm with uninstallBtnEnabled := !selectedItems.isEmpty }

/-- The process emits `started`: the lambda connected in the constructor runs
`setBusy(true)`. -/
def onStarted (pm : State) : State :=
  setBusy true { pm with running := true }

/-- The process emits `finished(exitCode, exitStatus)`: the lambda connected in the
constructor runs `setBusy(false)`. -/
def onFinished (exitCode : Int) (exitStatus : ExitStatus) (pm : State) : State :=
  setBusy false { pm with running := false, exitCode := exitCode, exitStatus := exitStatus }

/-- The calls `setArguments(arguments)` and `start(QIODevice::ReadOnly)`, for a process
that starts. -/
def start (arguments : List QString) (pm : State) : State :=
  onStarted { pm with launched := pm.launched ++ [arguments] }

/-- A launch followed to the end of the run: the state once `finished` has been handled,
and the output read from the process. -/
def runToEnd (env : Env) (arguments : List QString) (pm : State) : State × QString :=
  let pm := start arguments pm
  let run := env pm.launched
  (onFinished run.exitCode run.exitStatus pm, run.output)

/-- The arguments of the listing command. -/
def listArgs : List QString := ["-m".toList, "pip".toList, "list".toList]

/-- The body of the loop over `j` in `refreshInstalledPackagesList`, for line `i`: both
captures become items of row `i - 2`, the second one without the selectable flag. -/
def setRowItems (regex : QRegExp) (i : Nat) (table : QTableWidget) : QTableWidget :=
  (List.range' 1 2).foldl
    (fun tbl j => tbl.setItem (i - 2) (j - 1) ⟨regex.cap j, decide (j = 1)⟩) table

/-- The body of the loop over `i` in `refreshInstalledPackagesList`. -/
def parseLine (regex : QRegExp) (lines : List QString) (table : QTableWidget) (i : Nat) :
    QTableWidget :=
  let currentLine := lines.getD i []
  let (pos, regex) := regex.indexIn currentLine
  if pos ≠ -1 then setRowItems regex i table else table

/-- The function `refreshInstalledPackagesList()`. -/
def refreshInstalledPackagesList (env : Env) (pm : State) : State :=
  let (pm, output) := runToEnd env listArgs pm
  if pm.exitStatus ≠ ExitStatus.NormalExit then
    { pm with reports := pm.reports ++ [Report.critical] }
  else
    let lines := splitRef '\n' output
    let regex := listRegex
    if lines.length ≤ 3 then pm
    else
      let table := pm.installedPackagesView.setRowCount (lines.length - 3)
      let table := (List.range' 2 (lines.length - 3)).foldl (parseLine regex lines) table
      { pm with installedPackagesView := table }

/-- The function `executeCommand(arguments)`: the process is started and polled until it
is no longer running; the output console it fills is display only and is left out. -/
def executeCommand (env : Env) (arguments : List QString) (pm : State) : State :=
  (runToEnd env arguments pm).1

/-- The arguments of the install command. -/
def installArgs (packageName : QString) : List QString :=
  ["-m".toList, "pip".toList, "install".toList, packageName]

/-- The arguments of the uninstall command. -/
def uninstallArgs (packageName : QString) : List QString :=
  ["-m".toList, "pip".toList, "uninstall".toList, "--yes".toList, packageName]

/-- The two `ccLog` calls made when the exit code of the last run is not zero. -/
def logFailure (msg : String) (pm : State) : State :=
  if pm.exitCode ≠ 0 then { pm with reports := pm.reports ++ [Report.error msg, Report.warning] }
  else pm

/-- The slot `handleInstallPackage()`; `ok` and `packageName` are what
`QInputDialog::getText` gives back. -/
def handleInstallPackage (ok : Bool) (packageName : QString) (env : Env) (pm : State) : State :=
  if !ok || packageName.isEmpty then pm
  else
    let pm := executeCommand env (installArgs packageName) pm
    let pm := logFailure "Failed to run install commands" pm
    refreshInstalledPackagesList env pm

/-- The button a `QMessageBox::question` dialog returns. -/
inductive StandardButton where
  | Yes
  | No
  deriving DecidableEq, Repr

/-- The loop of `handleUninstallPackage()` over the selected items; `question k name` is
the answer to the `k`-th confirmation dialog, asked for package `name`. -/
def uninstallLoop (question : Nat → QString → StandardButton) (env : Env) :
    Nat → List QTableWidgetItem → State → State
  | _, [], pm => pm
  | k, item :: rest, pm =>
    let packageName := item.text
    let choice := question k packageName
    if choice ≠ StandardButton.Yes then uninstallLoop question env (k + 1) rest pm
    else
      let pm := executeCommand env (uninstallArgs packageName) pm
      let pm := logFailure "Failed to run uninstall commands" pm
      uninstallLoop question env (k + 1) rest pm

/-- The slot `handleUninstallPackage()`, `selectedItems` being what the view's
`selectedItems()` returns. -/
def handleUninstallPackage (selectedItems : List QTableWidgetItem)
    (question : Nat → QString → StandardButton) (env : Env) (pm : State) : State :=
  if selectedItems.isEmpty then pm
  else refreshInstalledPackagesList env (uninstallLoop question env 0 selectedItems pm)

/-- The loop over the columns `j` of row `i` in `handleSearch()`: whether a cell holds
the search string, `none` when `item(i, j)` is a null pointer and `->text()` is called on
it. -/
def searchRow (table : QTableWidget) (searchString : QString) (i : Nat) :
    List Nat → Option Bool
  | [] => some false
  | j :: js =>
    match table.item i j with
    | none => none
    | some item =>
      if contains item.text searchString then some true
      else searchRow table searchString i js

/-- The loop over the rows `i` in the non-empty branch of `handleSearch()`. -/
def searchLoop (searchString : QString) : List Nat → QTableWidget → Option QTableWidget
  | [], table => some table
  | i :: is, table =>
    match searchRow table searchString i (List.range table.columnCount) with
    | none => none
    | some found => searchLoop searchString is (table.setRowHidden i (!found))

/-- The slot `handleSearch()`; `none` when a null item is dereferenced. -/
def handleSearch (pm : State) : Option State :=
  let searchString := pm.searchBar
  let table := pm.installedPackagesView
  if searchString.isEmpty then
    some { pm with installedPackagesView :=
      (List.range table.rowCount).foldl (fun t i => t.setRowHidden i false) table }
  else
    (searchLoop searchString (List.range table.rowCount) table).map
      fun t => { pm with installedPackagesView := t }

/-- The widget as the constructor has it right before its call of
`refreshInstalledPackagesList()`: a table without rows, the install button enabled, the
uninstall button disabled, no process run yet. -/
def initial : State :=
  { installedPackagesView := ⟨[]⟩, installBtnEnabled := true, uninstallBtnEnabled := false,
    searchBar := [], running := false, exitStatus := ExitStatus.NormalExit, exitCode := 0,
    launched := [], reports := [] }

/-- The signals the constructor connects to `setBusy` and `handleSelectionChanged`. -/
inductive Event where
  | started
  | finished (exitCode : Int) (exitStatus : ExitStatus)
  | selectionChanged (selectedItems : List QTableWidgetItem)

/-- The slot run for a signal. -/
def step (pm : State) : Event → State
  | .started => onStarted pm
  | .finished exitCode exitStatus => onFinished exitCode exitStatus pm
  | .selectionChanged selectedItems => handleSelectionChanged selectedItems pm

/-- The states the widget can be in: the constructor's state, and from there any refresh,
install, uninstall, edit of the search bar and search that returns. -/
inductive Reachable : State → Prop where
  | init : Reachable initial
  | refresh (env : Env) (pm : State) :
      Reachable pm → Reachable (refreshInstalledPackagesList env pm)
  | install (ok : Bool) (packageName : QString) (env : Env) (pm : State) :
      Reachable pm → Reachable (handleInstallPackage ok packageName env pm)
  | uninstall (selectedItems : List QTableWidgetItem)
      (question : Nat → QString → StandardButton) (env : Env) (pm : State) :
      Reachable pm → Reachable (handleUninstallPackage selectedItems question env pm)
  | edit (text : QString) (pm : State) :
      Reachable pm → Reachable { pm with searchBar := text }
  | search (pm pm' : State) :
      Reachable pm → handleSearch pm = some pm' → Reachable pm'
  | signal (e : Event) (pm : State) : Reachable pm → Reachable (step pm e)

/-! ## Auxiliary definitions for the statements -/

/-- The match every greedy choice leads to when nothing has to be given back. -/
def greedy : List Atom → QString → Match
  | [], _ => ⟨0, []⟩
  | a :: rest, s =>
    let m := greedy rest (s.drop (a.hi s))
    ⟨a.hi s + m.length, if a.capturing then s.take (a.hi s) :: m.groups else m.groups⟩

/-- The first run of non-space characters of a line (empty when the line starts with a
space). -/
def firstField (line : QString) : QString := line.takeWhile isNonSpace

/-- The run of non-space characters after the first field and the spaces behind it. -/
def secondField (line : QString) : QString :=
  ((line.dropWhile isNonSpace).dropWhile isSpace).takeWhile isNonSpace

/-- A row once both items of `line` have been set; the hidden flag is kept. -/
def filled (line : QString) (r : TableRow) : TableRow :=
  { name := some ⟨firstField line, true⟩, version := some ⟨secondField line, false⟩,
    hidden := r.hidden }

/-- The outcome of the listing run a refresh of `pm` starts. -/
def listRun (env : Env) (pm : State) : ProcessRun := env (pm.launched ++ [listArgs])

/-- The lines a refresh of `pm` splits the listing output into. -/
def listLines (env : Env) (pm : State) : List QString :=
  splitRef '\n' (listRun env pm).output

/-- A line of the form `<name><whitespace><version>[<whitespace><marker>]`, in its
parts; `marker` holds the whitespace before the marker and the marker itself. -/
structure PackageLine where
  name : QString
  gap : QString
  version : QString
  marker : Option (QString × QString)
  deriving DecidableEq

/-- The text of the optional part of a package line. -/
def PackageLine.suffix (p : PackageLine) : QString :=
  match p.marker with
  | none => []
  | some (g, m) => g ++ m

/-- The text of a package line. -/
def PackageLine.render (p : PackageLine) : QString :=
  p.name ++ p.gap ++ p.version ++ p.suffix

/-- Name and version are non-empty and free of whitespace, and each whitespace part is a
non-empty run of spaces. -/
def PackageLine.WellFormed (p : PackageLine) : Prop :=
  p.name ≠ [] ∧ (∀ c ∈ p.name, isSpace c = false) ∧
  p.gap ≠ [] ∧ (∀ c ∈ p.gap, isSpace c = true) ∧
  p.version ≠ [] ∧ (∀ c ∈ p.version, isSpace c = false) ∧
  ∀ g m, p.marker = some (g, m) → g ≠ [] ∧ ∀ c ∈ g, isSpace c = true

/-- Whether a line has the form `<name><whitespace><version>[<whitespace><marker>]`: it
starts with a non-empty run of non-space characters and a second such run follows the
spaces behind it. -/
def isPackageLine (line : QString) : Bool :=
  !(firstField line).isEmpty && !(secondField line).isEmpty

/-- Every row has an item in both columns. -/
def Populated (t : QTableWidget) : Prop :=
  ∀ r ∈ t.rows, r.name.isSome = true ∧ r.version.isSome = true

/-- Whether a cell of the row holds `searchString`. -/
def rowFound (searchString : QString) (r : TableRow) : Bool :=
  (match r.name with
    | some a => contains a.text searchString
    | none => false) ||
  (match r.version with
    | some b => contains b.text searchString
    | none => false)

/-- The output of the example: a header, a separator, two packages and two newlines at
the end. -/
def exampleOutput : QString :=
  "Name Version\n---- ----\nfoo 1.0\nbar 2.3.1 (dev)\n\n".toList

/-- An environment in which every run exits normally with code 0 and prints `output`. -/
def constEnv (output : QString) : Env := fun _ => ⟨ExitStatus.NormalExit, 0, output⟩

/-- The output of the example with a single newline at the end, as `pip list` prints
it. -/
def listingOutput : QString :=
  "Name Version\n---- ----\nfoo 1.0\nbar 2.3.1 (dev)\n".toList

/-- The two package lines of `listingOutput`, in their parts. -/
def listingPackages : List PackageLine :=
  [ ⟨"foo".toList, " ".toList, "1.0".toList, none⟩,
    ⟨"bar".toList, " ".toList, "2.3.1".toList, some (" ".toList, "(dev)".toList)⟩ ]

/-- An output whose first line after the separator is empty. -/
def blankLineOutput : QString :=
  "Name Version\n---- ----\n\nfoo 1.0\n".toList

/-- The widget after a first refresh that read `exampleOutput`. -/
def listedState : State := refreshInstalledPackagesList (constEnv exampleOutput) initial

/-- A row after the search for a non-empty `searchString`: hidden unless a cell holds
it. -/
def hideBy (searchString : QString) (r : TableRow) : TableRow :=
  { r with hidden := !rowFound searchString r }

/-- The state `listedState` with `2.3` typed into the search bar. -/
def searchState : State := { listedState with searchBar := "2.3".toList }

/-- An environment in which every run exits normally with code 1 and prints nothing. -/
def failingEnv : Env := fun _ => ⟨ExitStatus.NormalExit, 1, []⟩

/-- The process starts and, while it runs, the selection changes to one item. -/
def selectWhileRunning : List Event :=
  [Event.started, Event.selectionChanged [⟨"foo".toList, true⟩]]

/-- An output whose first line after the separator is ` solo`, a single field with a
space before it. -/
def leadingSpaceOutput : QString :=
  "Name Version\n---- ----\n solo\nfoo 1.0\n".toList

/-! ## What the pattern captures -/

theorem tryLen_first (k : QString → Option Match) (capturing : Bool) (s : QString)
    (lo n : Nat) (m : Match) (hlo : lo ≤ n) (hk : k (s.drop n) = some m) :
    tryLen k capturing s lo n
      = some ⟨n + m.length, if capturing then s.take n :: m.groups else m.groups⟩ := by
  cases n with
  | zero =>
    have h0 : lo = 0 := by omega
    simp only [List.drop_zero] at hk
    simp [tryLen, h0, hk]
  | succ n =>
    simp [tryLen, hlo, hk]

theorem matchHere_nullable (pat : List Atom) (h : ∀ a ∈ pat, a.quant ≠ Quant.one)
    (s : QString) : matchHere pat s = some (greedy pat s) := by
  induction pat generalizing s with
  | nil => rfl
  | cons a rest ih =>
    have hrest : ∀ b ∈ rest, b.quant ≠ Quant.one := fun b hb => h b (List.mem_cons_of_mem _ hb)
    have ha : a.quant.lo = 0 := by
      have := h a (List.mem_cons_self _ _)
      cases hq : a.quant <;> simp_all [Quant.lo]
    show tryLen (matchHere rest) a.capturing s a.quant.lo (a.hi s) = _
    rw [tryLen_first _ _ _ _ _ (greedy rest (s.drop (a.hi s))) (by omega) (ih hrest _)]
    rfl

theorem searchFrom_of_match (pat : List Atom) (pos : Nat) (s : QString) (m : Match)
    (h : matchHere pat s = some m) : searchFrom pat pos s = some (pos, s, m) := by
  cases s with
  | nil => simp [searchFrom, h]
  | cons c cs => simp [searchFrom, h]

theorem take_length_takeWhile (p : Char → Bool) (s : QString) :
    s.take (s.takeWhile p).length = s.takeWhile p := by
  induction s with
  | nil => rfl
  | cons c cs ih =>
    by_cases hc : p c <;> simp [List.takeWhile_cons, hc, ih]

theorem drop_length_takeWhile (p : Char → Bool) (s : QString) :
    s.drop (s.takeWhile p).length = s.dropWhile p := by
  induction s with
  | nil => rfl
  | cons c cs ih =>
    by_cases hc : p c <;> simp [List.takeWhile_cons, List.dropWhile_cons, hc, ih]

theorem listPattern_nullable : ∀ a ∈ listPattern, a.quant ≠ Quant.one := by
  intro a ha
  simp only [listPattern, List.mem_cons, List.mem_singleton, List.not_mem_nil, or_false] at ha
  rcases ha with h | h | h | h | h <;> subst h <;> simp

/-- On every string the pattern matches at offset 0; group 1 is the first field and
group 2 the second. -/
theorem indexIn_listRegex (str : QString) :
    ∃ whole third, listRegex.indexIn str
      = (0, ⟨listPattern, [whole, firstField str, secondField str, third]⟩) := by
  have hm := matchHere_nullable listPattern listPattern_nullable str
  have hs := searchFrom_of_match listPattern 0 str _ hm
  refine ⟨str.take (greedy listPattern str).length, ?_⟩
  simp only [QRegExp.indexIn, listRegex, hs]
  simp [greedy, listPattern, Atom.hi, take_length_takeWhile, drop_length_takeWhile,
    firstField, secondField]

/-! ## Rows written by a refresh -/

theorem setItem_rows_getElem? (row col : Nat) (it : QTableWidgetItem) (t : QTableWidget)
    (j : Nat) :
    (t.setItem row col it).rows[j]?
      = if j = row then (t.rows[j]?).map (QTableWidget.setCell col it) else t.rows[j]? := by
  unfold QTableWidget.setItem
  cases hr : t.rows[row]? with
  | none =>
    by_cases hj : j = row
    · subst hj
      simp [hr]
    · simp [hj]
  | some r =>
    by_cases hj : j = row
    · subst hj
      have hlt : j < t.rows.length := by
        rcases List.getElem?_eq_some.1 hr with ⟨hlt, _⟩
        exact hlt
      simp [List.getElem?_set, hr, hlt]
    · have hj' : ¬ row = j := fun e => hj e.symm
      simp [List.getElem?_set, hj, hj']

theorem parseLine_rows_getElem? (lines : List QString) (t : QTableWidget) (i j : Nat) :
    (parseLine listRegex lines t i).rows[j]?
      = if j = i - 2 then (t.rows[j]?).map (filled (lines.getD i [])) else t.rows[j]? := by
  obtain ⟨whole, third, h⟩ := indexIn_listRegex (lines.getD i [])
  have hfold : parseLine listRegex lines t i
      = (t.setItem (i - 2) 0 ⟨firstField (lines.getD i []), true⟩).setItem (i - 2) 1
          ⟨secondField (lines.getD i []), false⟩ := by
    unfold parseLine
    generalize lines.getD i [] = line at h ⊢
    simp [h, setRowItems, List.range', QRegExp.cap]
  rw [hfold, setItem_rows_getElem?, setItem_rows_getElem?]
  by_cases hj : j = i - 2
  · simp only [hj, if_true, Option.map_map]
    cases t.rows[i - 2]? with
    | none => rfl
    | some r => simp [QTableWidget.setCell, filled]
  · simp [hj]

theorem parseLoop_rows_getElem? (lines : List QString) (n : Nat) (t : QTableWidget) (j : Nat) :
    ((List.range' 2 n).foldl (parseLine listRegex lines) t).rows[j]?
      = if j < n then (t.rows[j]?).map (filled (lines.getD (j + 2) [])) else t.rows[j]? := by
  induction n generalizing j with
  | zero => simp
  | succ n ih =>
    rw [List.range'_concat, List.foldl_append]
    simp only [List.foldl_cons, List.foldl_nil, Nat.one_mul]
    rw [parseLine_rows_getElem?, ih]
    by_cases hj : j = n
    · subst hj
      simp [Nat.add_comm]
    · have h1 : ¬ j = 2 + n - 2 := by omega
      simp only [h1, if_false]
      by_cases hlt : j < n
      · have : j < n + 1 := by omega
        simp [hlt, this]
      · have : ¬ j < n + 1 := by omega
        simp [hlt, this]

theorem setRowCount_length (n : Nat) (t : QTableWidget) : (t.setRowCount n).rows.length = n := by
  simp [QTableWidget.setRowCount]
  omega

/-- The three ways a refresh ends. -/
theorem refresh_view (env : Env) (pm : State) :
    (refreshInstalledPackagesList env pm).installedPackagesView
      = if (listRun env pm).exitStatus ≠ ExitStatus.NormalExit then pm.installedPackagesView
        else if (listLines env pm).length ≤ 3 then pm.installedPackagesView
        else (List.range' 2 ((listLines env pm).length - 3)).foldl
          (parseLine listRegex (listLines env pm))
          (pm.installedPackagesView.setRowCount ((listLines env pm).length - 3)) := by
  simp only [refreshInstalledPackagesList, runToEnd, start, onStarted, onFinished, setBusy,
    listRun, listLines]
  split_ifs <;> rfl

theorem refresh_rows_getElem? (env : Env) (pm : State)
    (hexit : (listRun env pm).exitStatus = ExitStatus.NormalExit)
    (hlen : 3 < (listLines env pm).length) (j : Nat) :
    (refreshInstalledPackagesList env pm).installedPackagesView.rows[j]?
      = if j < (listLines env pm).length - 3 then
          ((pm.installedPackagesView.setRowCount ((listLines env pm).length - 3)).rows[j]?).map
            (filled ((listLines env pm).getD (j + 2) []))
        else none := by
  have h3 : ¬ (listLines env pm).length ≤ 3 := by omega
  rw [refresh_view, if_neg (by simp [hexit]), if_neg h3, parseLoop_rows_getElem?]
  by_cases hj : j < (listLines env pm).length - 3
  · simp [hj]
  · have hlen' := setRowCount_length ((listLines env pm).length - 3) pm.installedPackagesView
    have : (pm.installedPackagesView.setRowCount ((listLines env pm).length - 3)).rows[j]?
        = none := by
      apply List.getElem?_eq_none
      omega
    simp [hj, this]

/-- After a normal exit with more than three lines the table has one row per line between
the separator and the last line, holding the first two fields of that line. -/
theorem refresh_cellTexts (env : Env) (pm : State)
    (hexit : (listRun env pm).exitStatus = ExitStatus.NormalExit)
    (hlen : 3 < (listLines env pm).length) :
    (refreshInstalledPackagesList env pm).installedPackagesView.cellTexts
      = (((listLines env pm).drop 2).dropLast).map
          fun l => (some (firstField l), some (secondField l)) := by
  apply List.ext_getElem?
  intro j
  have hlen' := setRowCount_length ((listLines env pm).length - 3) pm.installedPackagesView
  simp only [QTableWidget.cellTexts, List.getElem?_map, List.dropLast_eq_take,
    List.length_drop]
  rw [refresh_rows_getElem? env pm hexit hlen]
  by_cases hj : j < (listLines env pm).length - 3
  · have hj2 : j < (listLines env pm).length - 2 - 1 := by omega
    have hj3 : j + 2 < (listLines env pm).length := by omega
    have hr : j < (pm.installedPackagesView.setRowCount
        ((listLines env pm).length - 3)).rows.length := by omega
    rw [if_pos hj, List.getElem?_eq_getElem hr, List.getElem?_take_of_lt hj2,
      List.getElem?_drop, Nat.add_comm 2 j, List.getElem?_eq_getElem hj3]
    simp [filled, List.getD_eq_getElem?_getD, List.getElem?_eq_getElem hj3]
  · have hj2 : ¬ j < (listLines env pm).length - 2 - 1 := by omega
    rw [if_neg hj]
    simp [List.getElem?_take, hj2]

theorem refresh_rowCount (env : Env) (pm : State)
    (hexit : (listRun env pm).exitStatus = ExitStatus.NormalExit)
    (hlen : 3 < (listLines env pm).length) :
    (refreshInstalledPackagesList env pm).installedPackagesView.rowCount
      = (listLines env pm).length - 3 := by
  have h := congrArg List.length (refresh_cellTexts env pm hexit hlen)
  simp only [QTableWidget.cellTexts, List.length_map, List.length_dropLast,
    List.length_drop] at h
  rw [QTableWidget.rowCount, h]
  omega

theorem refresh_unchanged (env : Env) (pm : State)
    (h : (listRun env pm).exitStatus ≠ ExitStatus.NormalExit ∨ (listLines env pm).length ≤ 3) :
    (refreshInstalledPackagesList env pm).installedPackagesView = pm.installedPackagesView := by
  rw [refresh_view]
  rcases h with h | h
  · rw [if_pos h]
  · rw [if_pos h]
    split_ifs <;> rfl

/-! ## Lines of the package form -/

theorem takeWhile_append_stop (p : Char → Bool) (a b : QString) (ha : ∀ c ∈ a, p c = true)
    (hb : ∀ c ∈ b.head?, p c = false) : (a ++ b).takeWhile p = a := by
  induction a with
  | nil =>
    cases b with
    | nil => rfl
    | cons c cs => simp [List.takeWhile_cons, hb c (by simp)]
  | cons x xs ih =>
    have hx : p x = true := ha x (List.mem_cons_self _ _)
    have hxs : ∀ c ∈ xs, p c = true := fun c hc => ha c (List.mem_cons_of_mem _ hc)
    simp [List.takeWhile_cons, hx, ih hxs]

theorem dropWhile_append_stop (p : Char → Bool) (a b : QString) (ha : ∀ c ∈ a, p c = true)
    (hb : ∀ c ∈ b.head?, p c = false) : (a ++ b).dropWhile p = b := by
  induction a with
  | nil =>
    cases b with
    | nil => rfl
    | cons c cs => simp [List.dropWhile_cons, hb c (by simp)]
  | cons x xs ih =>
    have hx : p x = true := ha x (List.mem_cons_self _ _)
    have hxs : ∀ c ∈ xs, p c = true := fun c hc => ha c (List.mem_cons_of_mem _ hc)
    simp [List.dropWhile_cons, hx, ih hxs]

theorem head?_append_of_ne_nil (a b : QString) (ha : a ≠ []) : (a ++ b).head? = a.head? := by
  cases a with
  | nil => exact absurd rfl ha
  | cons x xs => rfl

theorem mem_of_mem_head? (a : QString) (c : Char) (h : c ∈ a.head?) : c ∈ a := by
  cases a with
  | nil => simp at h
  | cons x xs =>
    simp at h
    simp [h]

theorem suffix_head_space (p : PackageLine) (h : p.WellFormed) :
    ∀ c ∈ p.suffix.head?, isSpace c = true := by
  intro c hc
  obtain ⟨_, _, _, _, _, _, hm⟩ := h
  unfold PackageLine.suffix at hc
  cases hmk : p.marker with
  | none => simp [hmk] at hc
  | some gm =>
    obtain ⟨g, m⟩ := gm
    obtain ⟨hg, hgs⟩ := hm g m hmk
    simp only [hmk] at hc
    rw [head?_append_of_ne_nil g m hg] at hc
    exact hgs c (mem_of_mem_head? g c hc)

theorem firstField_render (p : PackageLine) (h : p.WellFormed) :
    firstField p.render = p.name := by
  obtain ⟨_, hn, hg, hgs, _, _, _⟩ := h
  unfold firstField PackageLine.render
  rw [List.append_assoc, List.append_assoc]
  apply takeWhile_append_stop
  · intro c hc
    simp [isNonSpace, hn c hc]
  · intro c hc
    rw [head?_append_of_ne_nil _ _ hg] at hc
    simp [isNonSpace, hgs c (mem_of_mem_head? _ c hc)]

theorem secondField_render (p : PackageLine) (h : p.WellFormed) :
    secondField p.render = p.version := by
  have hsuf := suffix_head_space p h
  obtain ⟨_, hn, hg, hgs, hv, hvs, _⟩ := h
  unfold secondField PackageLine.render
  rw [List.append_assoc, List.append_assoc]
  rw [dropWhile_append_stop isNonSpace p.name]
  · rw [dropWhile_append_stop isSpace p.gap _ hgs]
    · apply takeWhile_append_stop
      · intro c hc
        simp [isNonSpace, hvs c hc]
      · intro c hc
        simp [isNonSpace, hsuf c hc]
    · intro c hc
      rw [head?_append_of_ne_nil _ _ hv] at hc
      exact hvs c (mem_of_mem_head? _ c hc)
  · intro c hc
    simp [isNonSpace, hn c hc]
  · intro c hc
    rw [head?_append_of_ne_nil _ _ hg] at hc
    simp [isNonSpace, hgs c (mem_of_mem_head? _ c hc)]

theorem head?_dropWhile_not (p : Char → Bool) (l : QString) :
    ∀ c ∈ (l.dropWhile p).head?, p c = false := by
  induction l with
  | nil => intro c hc; simp at hc
  | cons x xs ih =>
    by_cases hx : p x = true
    · simpa [List.dropWhile_cons, hx] using ih
    · intro c hc
      simp only [List.dropWhile_cons, hx, if_false, List.head?_cons, Option.mem_def,
        Option.some.injEq, Bool.false_eq_true] at hc
      subst hc
      simpa using hx

theorem takeWhile_ne_nil (p : Char → Bool) (l : QString) (hl : l ≠ [])
    (hp : ∀ c ∈ l.head?, p c = true) : l.takeWhile p ≠ [] := by
  cases l with
  | nil => exact absurd rfl hl
  | cons x xs => simp [List.takeWhile_cons, hp x (by simp)]

theorem mem_takeWhile (p : Char → Bool) (l : QString) (c : Char) (h : c ∈ l.takeWhile p) :
    p c = true := by
  induction l with
  | nil => simp at h
  | cons x xs ih =>
    by_cases hx : p x = true
    · simp only [List.takeWhile_cons, hx, if_true, List.mem_cons] at h
      rcases h with h | h
      · rw [h]; exact hx
      · exact ih h
    · simp [List.takeWhile_cons, hx] at h

/-- The test `isPackageLine` holds exactly for the texts of well-formed package lines. -/
theorem isPackageLine_iff (line : QString) :
    isPackageLine line = true ↔ ∃ p : PackageLine, p.WellFormed ∧ p.render = line := by
  constructor
  · intro h
    have hf : firstField line ≠ [] := by
      intro e
      simp [isPackageLine, e] at h
    have hs : secondField line ≠ [] := by
      intro e
      simp [isPackageLine, e] at h
    unfold firstField at hf
    unfold secondField at hs
    generalize hr1 : line.dropWhile isNonSpace = rest1 at hs
    generalize hr2 : rest1.dropWhile isSpace = rest2 at hs
    have hrest2 : rest2 ≠ [] := by
      intro e
      simp [e] at hs
    have hrest1 : rest1 ≠ [] := by
      intro e
      rw [e] at hr2
      exact hrest2 hr2.symm
    have hgap : rest1.takeWhile isSpace ≠ [] := by
      apply takeWhile_ne_nil _ _ hrest1
      intro c hc
      have := head?_dropWhile_not isNonSpace line c (by rw [hr1]; exact hc)
      simpa [isNonSpace] using this
    have hns : ∀ (l : QString), ∀ c ∈ l.takeWhile isNonSpace, isSpace c = false := by
      intro l c hc
      have := mem_takeWhile isNonSpace l c hc
      simpa [isNonSpace] using this
    have hline : line = line.takeWhile isNonSpace ++ (rest1.takeWhile isSpace ++
        (rest2.takeWhile isNonSpace ++ rest2.dropWhile isNonSpace)) := by
      rw [List.takeWhile_append_dropWhile, ← hr2, List.takeWhile_append_dropWhile, ← hr1,
        List.takeWhile_append_dropWhile]
    by_cases hr3 : rest2.dropWhile isNonSpace = []
    · refine ⟨⟨line.takeWhile isNonSpace, rest1.takeWhile isSpace,
        rest2.takeWhile isNonSpace, none⟩, ⟨hf, hns line, hgap,
        fun c hc => mem_takeWhile isSpace rest1 c hc, hs, hns rest2, ?_⟩, ?_⟩
      · intro g m hgm
        cases hgm
      · rw [hr3] at hline
        simp only [PackageLine.render, PackageLine.suffix, List.append_assoc]
        exact hline.symm
    · refine ⟨⟨line.takeWhile isNonSpace, rest1.takeWhile isSpace,
        rest2.takeWhile isNonSpace, some ((rest2.dropWhile isNonSpace).takeWhile isSpace,
          (rest2.dropWhile isNonSpace).dropWhile isSpace)⟩, ⟨hf, hns line, hgap,
        fun c hc => mem_takeWhile isSpace rest1 c hc, hs, hns rest2, ?_⟩, ?_⟩
      · intro g m hgm
        simp only [Option.some.injEq, Prod.mk.injEq] at hgm
        obtain ⟨hg, _⟩ := hgm
        subst hg
        refine ⟨?_, fun c hc => mem_takeWhile isSpace _ c hc⟩
        apply takeWhile_ne_nil _ _ hr3
        intro c hc
        have := head?_dropWhile_not isNonSpace rest2 c hc
        simpa [isNonSpace] using this
      · simp only [PackageLine.render, PackageLine.suffix, List.append_assoc,
          List.takeWhile_append_dropWhile]
        rw [← hr2, List.takeWhile_append_dropWhile, ← hr1, List.takeWhile_append_dropWhile]
  · rintro ⟨p, hwf, rfl⟩
    have h1 := firstField_render p hwf
    have h2 := secondField_render p hwf
    obtain ⟨hn, _, _, _, hv, _, _⟩ := hwf
    have e1 : p.name.isEmpty = false := by
      cases hnm : p.name with
      | nil => exact absurd hnm hn
      | cons x xs => rfl
    have e2 : p.version.isEmpty = false := by
      cases hvm : p.version with
      | nil => exact absurd hvm hv
      | cons x xs => rfl
    simp [isPackageLine, h1, h2, e1, e2]

/-! ## Claims on `refreshInstalledPackagesList` -/

/-- C1: when the listing exits normally and its output splits into a header, a separator,
at least one line of the form `<name><whitespace><version>[<whitespace><marker>]` (name
and version non-empty and free of whitespace) and an empty last line, the table has
exactly n - 3 rows after the refresh and its rows hold, in the order of the lines, the
name and the version of each line and nothing of the marker. -/
theorem refresh_rows_of_package_lines (env : Env) (pm : State) (header separator : QString)
    (pkgs : List PackageLine)
    (hexit : (listRun env pm).exitStatus = ExitStatus.NormalExit)
    (hsplit : listLines env pm = header :: separator :: (pkgs.map PackageLine.render ++ [[]]))
    (hne : pkgs ≠ [])
    (hwf : ∀ p ∈ pkgs, p.WellFormed) :
    (refreshInstalledPackagesList env pm).installedPackagesView.rowCount
        = (listLines env pm).length - 3 ∧
    (refreshInstalledPackagesList env pm).installedPackagesView.cellTexts
        = pkgs.map fun p => (some p.name, some p.version) := by
  have hpos : 0 < pkgs.length := List.length_pos.2 hne
  have hlen : 3 < (listLines env pm).length := by
    rw [hsplit]
    simp
    omega
  refine ⟨refresh_rowCount env pm hexit hlen, ?_⟩
  rw [refresh_cellTexts env pm hexit hlen, hsplit]
  simp only [List.drop_succ_cons, List.drop_zero, List.dropLast_concat, List.map_map]
  apply List.map_congr_left
  intro p hp
  simp [firstField_render p (hwf p hp), secondField_render p (hwf p hp)]

theorem listingPackages_wellFormed : ∀ p ∈ listingPackages, p.WellFormed := by
  intro p hp
  simp only [listingPackages, List.mem_cons, List.mem_singleton, List.not_mem_nil,
    or_false] at hp
  rcases hp with h | h <;> subst h
  · refine ⟨by decide, by decide, by decide, by decide, by decide, by decide, ?_⟩
    intro g m hgm
    cases hgm
  · refine ⟨by decide, by decide, by decide, by decide, by decide, by decide, ?_⟩
    intro g m hgm
    cases hgm
    exact ⟨by decide, by decide⟩

/-- Witness for C1: the listing of `foo 1.0` and `bar 2.3.1 (dev)` read into the
constructor's empty table gives two rows, (foo, 1.0) and (bar, 2.3.1). -/
theorem refresh_rows_of_package_lines_witness :
    (listRun (constEnv listingOutput) initial).exitStatus = ExitStatus.NormalExit ∧
    (refreshInstalledPackagesList (constEnv listingOutput) initial).installedPackagesView.rowCount
        = (listLines (constEnv listingOutput) initial).length - 3 ∧
    (refreshInstalledPackagesList (constEnv listingOutput) initial).installedPackagesView.cellTexts
        = listingPackages.map fun p => (some p.name, some p.version) :=
  ⟨rfl, refresh_rows_of_package_lines (constEnv listingOutput) initial
    "Name Version".toList "---- ----".toList listingPackages rfl (by decide) (by decide)
    listingPackages_wellFormed⟩

/-- C2, as stated, fails: read into the constructor's empty table, the example output
with its two trailing newlines gives three rows, not the two rows (foo, 1.0) and
(bar, 2.3.1). -/
theorem example_output_not_two_rows :
    (refreshInstalledPackagesList (constEnv exampleOutput) initial).installedPackagesView.rowCount
        = 3 ∧
    (refreshInstalledPackagesList (constEnv exampleOutput) initial).installedPackagesView.cellTexts
        ≠ [(some "foo".toList, some "1.0".toList), (some "bar".toList, some "2.3.1".toList)] := by
  decide

/-- C2, amended: for every prior state and a normal exit, the example output with its two
trailing newlines gives exactly three rows, (foo, 1.0), (bar, 2.3.1) and a row of two
empty texts for the empty line before the last; the same output with a single trailing
newline gives exactly the two rows (foo, 1.0) and (bar, 2.3.1). -/
theorem example_output_rows (env : Env) (pm : State)
    (hexit : (listRun env pm).exitStatus = ExitStatus.NormalExit) :
    ((listRun env pm).output = exampleOutput →
      (refreshInstalledPackagesList env pm).installedPackagesView.cellTexts
        = [(some "foo".toList, some "1.0".toList), (some "bar".toList, some "2.3.1".toList),
           (some [], some [])]) ∧
    ((listRun env pm).output = listingOutput →
      (refreshInstalledPackagesList env pm).installedPackagesView.cellTexts
        = [(some "foo".toList, some "1.0".toList),
           (some "bar".toList, some "2.3.1".toList)]) := by
  constructor
  · intro hout
    have hl : listLines env pm = splitRef '\n' exampleOutput := by rw [listLines, hout]
    rw [refresh_cellTexts env pm hexit (by rw [hl]; decide), hl]
    decide
  · intro hout
    have hl : listLines env pm = splitRef '\n' listingOutput := by rw [listLines, hout]
    rw [refresh_cellTexts env pm hexit (by rw [hl]; decide), hl]
    decide

/-- Witness for the amended C2, at the constructor's state. -/
theorem example_output_rows_witness :
    (refreshInstalledPackagesList (constEnv exampleOutput) initial).installedPackagesView.cellTexts
      = [(some "foo".toList, some "1.0".toList), (some "bar".toList, some "2.3.1".toList),
         (some [], some [])] :=
  (example_output_rows (constEnv exampleOutput) initial rfl).1 rfl

/-- C3, as stated, fails: an output of five lines whose line 2 is empty and whose line 3
is `foo 1.0` has one line of the package form among lines 2..3, and the table gets two
rows. -/
theorem blank_line_counts_as_row :
    4 ≤ (listLines (constEnv blankLineOutput) initial).length ∧
    (((listLines (constEnv blankLineOutput) initial).drop 2).dropLast.filter
        isPackageLine).length = 1 ∧
    (refreshInstalledPackagesList (constEnv blankLineOutput)
        initial).installedPackagesView.rowCount = 2 := by
  decide

theorem item_eq (t : QTableWidget) (row : Nat) (r : TableRow) (h : t.rows[row]? = some r) :
    t.item row 0 = r.name ∧ t.item row 1 = r.version := by
  simp [QTableWidget.item, h]

theorem fields_of_blank (line : QString) (h : ∀ c ∈ line, isSpace c = true) :
    firstField line = [] ∧ secondField line = [] := by
  have h1 : line.takeWhile isNonSpace = [] := by
    cases line with
    | nil => rfl
    | cons c cs => simp [List.takeWhile_cons, isNonSpace, h c (by simp)]
  have h2 : line.dropWhile isNonSpace = line := by
    cases line with
    | nil => rfl
    | cons c cs => simp [List.dropWhile_cons, isNonSpace, h c (by simp)]
  have h3 : line.dropWhile isSpace = [] := by
    have := dropWhile_append_stop isSpace line [] h (by simp)
    simpa using this
  simp [firstField, secondField, h1, h2, h3]

theorem fields_of_single (line : QString) (h : ∀ c ∈ line, isSpace c = false) :
    firstField line = line ∧ secondField line = [] := by
  have hp : ∀ c ∈ line, isNonSpace c = true := fun c hc => by simp [isNonSpace, h c hc]
  have h1 : line.takeWhile isNonSpace = line := by
    have := takeWhile_append_stop isNonSpace line [] hp (by simp)
    simpa using this
  have h2 : line.dropWhile isNonSpace = [] := by
    have := dropWhile_append_stop isNonSpace line [] hp (by simp)
    simpa using this
  simp [firstField, secondField, h1, h2]

/-- The two fields of a line given in its parts: a run of non-space characters at the
start, the spaces behind it, a second run of non-space characters, and a rest that is
empty or starts with a space. -/
theorem fields_of_parts (field1 gap field2 rest : QString)
    (h1 : ∀ c ∈ field1, isSpace c = false) (hg : ∀ c ∈ gap, isSpace c = true)
    (h2 : ∀ c ∈ field2, isSpace c = false) (hrest : ∀ c ∈ rest.head?, isSpace c = true)
    (hgap : gap = [] → field2 = []) (hend : field2 = [] → rest = []) :
    firstField (field1 ++ gap ++ field2 ++ rest) = field1 ∧
    secondField (field1 ++ gap ++ field2 ++ rest) = field2 := by
  have hn1 : ∀ c ∈ field1, isNonSpace c = true := fun c hc => by simp [isNonSpace, h1 c hc]
  have hn2 : ∀ c ∈ field2, isNonSpace c = true := fun c hc => by simp [isNonSpace, h2 c hc]
  have htail : ∀ c ∈ (field2 ++ rest).head?, isSpace c = false := by
    intro c hc
    by_cases hf : field2 = []
    · rw [hf, hend hf] at hc
      simp at hc
    · rw [head?_append_of_ne_nil _ _ hf] at hc
      exact h2 c (mem_of_mem_head? _ c hc)
  have hmid : ∀ c ∈ (gap ++ (field2 ++ rest)).head?, isNonSpace c = false := by
    intro c hc
    by_cases hge : gap = []
    · rw [hge, hgap hge, hend (hgap hge)] at hc
      simp at hc
    · rw [head?_append_of_ne_nil _ _ hge] at hc
      simp [isNonSpace, hg c (mem_of_mem_head? _ c hc)]
  have hrest' : ∀ c ∈ rest.head?, isNonSpace c = false := fun c hc => by
    simp [isNonSpace, hrest c hc]
  unfold firstField secondField
  rw [List.append_assoc, List.append_assoc]
  refine ⟨takeWhile_append_stop isNonSpace field1 _ hn1 hmid, ?_⟩
  rw [dropWhile_append_stop isNonSpace field1 _ hn1 hmid,
    dropWhile_append_stop isSpace gap _ hg htail]
  exact takeWhile_append_stop isNonSpace field2 rest hn2 hrest'

/-- C3, amended: after a normal exit with at least 4 lines the table has n - 3 rows
whatever the lines hold: each of lines 2..n-2 gets a row with an item in both columns.
Column 0 holds the run of non-space characters at the very start of the line, empty when
the line is empty or starts with a space; column 1 holds the run of non-space characters
that follows the spaces behind that run, empty when there is none. A malformed line is not
skipped: an empty or whitespace-only line gives two empty texts, a single field with no
space before it gives that field and an empty text, and a line that starts with a space
gives an empty text and its first field. -/
theorem refresh_row_for_every_line (env : Env) (pm : State)
    (hexit : (listRun env pm).exitStatus = ExitStatus.NormalExit)
    (hlen : 4 ≤ (listLines env pm).length) :
    (refreshInstalledPackagesList env pm).installedPackagesView.rowCount
        = (listLines env pm).length - 3 ∧
    ∀ i line, 2 ≤ i → i < (listLines env pm).length - 1 → (listLines env pm)[i]? = some line →
      ∃ a b,
        (refreshInstalledPackagesList env pm).installedPackagesView.item (i - 2) 0 = some a ∧
        (refreshInstalledPackagesList env pm).installedPackagesView.item (i - 2) 1 = some b ∧
        a.text = firstField line ∧ b.text = secondField line ∧
        (∀ field1 gap field2 rest : QString, line = field1 ++ gap ++ field2 ++ rest →
          (∀ c ∈ field1, isSpace c = false) → (∀ c ∈ gap, isSpace c = true) →
          (∀ c ∈ field2, isSpace c = false) → (∀ c ∈ rest.head?, isSpace c = true) →
          (gap = [] → field2 = []) → (field2 = [] → rest = []) →
          a.text = field1 ∧ b.text = field2) ∧
        ((∀ c ∈ line, isSpace c = true) → a.text = [] ∧ b.text = []) ∧
        ((∀ c ∈ line, isSpace c = false) → a.text = line ∧ b.text = []) ∧
        (∀ field trailing : QString, line = field ++ trailing →
          (∀ c ∈ field, isSpace c = false) → (∀ c ∈ trailing, isSpace c = true) →
          a.text = field ∧ b.text = []) ∧
        (∀ leading field rest : QString, line = leading ++ field ++ rest →
          leading ≠ [] → (∀ c ∈ leading, isSpace c = true) →
          field ≠ [] → (∀ c ∈ field, isSpace c = false) →
          (∀ c ∈ rest.head?, isSpace c = true) →
          a.text = [] ∧ b.text = field) := by
  have hlen' : 3 < (listLines env pm).length := by omega
  refine ⟨refresh_rowCount env pm hexit hlen', ?_⟩
  intro i line h2 hi hline
  have hrow := refresh_rows_getElem? env pm hexit hlen' (i - 2)
  have hlt : i - 2 < (listLines env pm).length - 3 := by omega
  have hsz := setRowCount_length ((listLines env pm).length - 3) pm.installedPackagesView
  have hr : i - 2 < (pm.installedPackagesView.setRowCount
      ((listLines env pm).length - 3)).rows.length := by omega
  have hi2 : i - 2 + 2 = i := by omega
  rw [if_pos hlt, List.getElem?_eq_getElem hr, hi2] at hrow
  have hget : (listLines env pm).getD i [] = line := by
    simp [List.getD_eq_getElem?_getD, hline]
  rw [hget] at hrow
  obtain ⟨h0, h1⟩ := item_eq _ _ _ hrow
  refine ⟨⟨firstField line, true⟩, ⟨secondField line, false⟩, ?_, ?_, rfl, rfl, ?_, ?_, ?_,
    ?_, ?_⟩
  · rw [h0]; rfl
  · rw [h1]; rfl
  · intro field1 gap field2 rest hl hf1 hg hf2 hrest hgap hend
    rw [hl]
    exact fields_of_parts field1 gap field2 rest hf1 hg hf2 hrest hgap hend
  · exact fields_of_blank line
  · exact fields_of_single line
  · intro field trailing hl hf ht
    have h := fields_of_parts field trailing [] [] hf ht (by simp) (by simp)
      (fun _ => rfl) (fun _ => rfl)
    simp only [List.append_nil] at h
    rw [hl]
    exact h
  · intro leading field rest hl hne hlead hfne hf hrest
    have h := fields_of_parts [] leading field rest (by simp) hlead hf hrest
      (fun e => absurd e hne) (fun e => absurd e hfne)
    simp only [List.nil_append] at h
    rw [hl]
    exact h

/-- Witness for the amended C3: in `leadingSpaceOutput` line 2 is ` solo`; it gets row 0,
with an empty text in column 0 and `solo` in column 1. -/
theorem refresh_row_for_every_line_witness :
    (refreshInstalledPackagesList (constEnv leadingSpaceOutput)
        initial).installedPackagesView.rowCount = 5 - 3 ∧
    ∃ a b,
      (refreshInstalledPackagesList (constEnv leadingSpaceOutput)
        initial).installedPackagesView.item 0 0 = some a ∧
      (refreshInstalledPackagesList (constEnv leadingSpaceOutput)
        initial).installedPackagesView.item 0 1 = some b ∧
      a.text = [] ∧ b.text = "solo".toList := by
  have h := refresh_row_for_every_line (constEnv leadingSpaceOutput) initial rfl (by decide)
  obtain ⟨a, b, h0, h1, _, _, _, _, _, _, hlead⟩ :=
    h.2 2 " solo".toList (by decide) (by decide) (by decide)
  exact ⟨h.1, a, b, h0, h1,
    hlead " ".toList "solo".toList [] (by decide) (by decide) (by decide) (by decide)
      (by decide) (by decide)⟩

/-- C4: on both early exits, a process that did not exit normally or an output of 3 or
fewer lines, the table after the refresh is the table before it: same row count, same
item in every cell. -/
theorem refresh_early_exit_keeps_table (env : Env) (pm : State)
    (h : (listRun env pm).exitStatus ≠ ExitStatus.NormalExit ∨ (listLines env pm).length ≤ 3) :
    (refreshInstalledPackagesList env pm).installedPackagesView = pm.installedPackagesView ∧
    (refreshInstalledPackagesList env pm).installedPackagesView.rowCount
        = pm.installedPackagesView.rowCount ∧
    ∀ i j, (refreshInstalledPackagesList env pm).installedPackagesView.item i j
        = pm.installedPackagesView.item i j := by
  have hv := refresh_unchanged env pm h
  rw [hv]
  exact ⟨rfl, rfl, fun _ _ => rfl⟩

/-- Witness for C4: a listing of only two lines leaves the three rows of `listedState`
as they are. -/
theorem refresh_early_exit_keeps_table_witness :
    (listLines (constEnv "Name Version\n---- ----".toList) listedState).length = 2 ∧
    (refreshInstalledPackagesList (constEnv "Name Version\n---- ----".toList)
        listedState).installedPackagesView = listedState.installedPackagesView ∧
    listedState.installedPackagesView.rowCount = 3 :=
  ⟨by decide,
   (refresh_early_exit_keeps_table (constEnv "Name Version\n---- ----".toList) listedState
     (Or.inr (by decide))).1,
   by decide⟩

/-- C5, as stated, fails: a listing that returns no output at all (one empty line) leaves
the three rows of `listedState` in the table. -/
theorem short_output_table_not_empty :
    (listLines (constEnv []) listedState).length < 4 ∧
    (refreshInstalledPackagesList (constEnv []) listedState).installedPackagesView.rowCount
      = 3 := by
  decide

/-- C5, amended: when the listing returns fewer than 4 lines the table keeps the rows it
had before the refresh; it is empty afterwards when it was empty before, as at the
constructor's first refresh. -/
theorem refresh_short_output_keeps_rows (env : Env) (pm : State)
    (h : (listLines env pm).length < 4) :
    (refreshInstalledPackagesList env pm).installedPackagesView.rows
        = pm.installedPackagesView.rows ∧
    (pm.installedPackagesView.rowCount = 0 →
      (refreshInstalledPackagesList env pm).installedPackagesView.rowCount = 0) := by
  have hv := refresh_unchanged env pm (Or.inr (by omega))
  rw [hv]
  exact ⟨rfl, fun h0 => h0⟩

/-- Witness for the amended C5: the constructor's refresh of the empty table, with a
listing of three lines, leaves it empty. -/
theorem refresh_short_output_keeps_rows_witness :
    (listLines (constEnv "Name Version\n---- ----\n".toList) initial).length < 4 ∧
    (refreshInstalledPackagesList (constEnv "Name Version\n---- ----\n".toList)
        initial).installedPackagesView.rowCount = 0 :=
  ⟨by decide,
   (refresh_short_output_keeps_rows (constEnv "Name Version\n---- ----\n".toList) initial
     (by decide)).2 rfl⟩

/-! ## The search filter -/

theorem contains_iff (text str : QString) : contains text str = true ↔ str <:+: text := by
  simp only [contains, List.any_eq_true, List.mem_tails, List.isPrefixOf_iff_prefix]
  rw [List.infix_iff_prefix_suffix]
  constructor
  · rintro ⟨t, ht, hp⟩
    exact ⟨t, hp, ht⟩
  · rintro ⟨t, hp, ht⟩
    exact ⟨t, ht, hp⟩

theorem populated_getElem? (t : QTableWidget) (h : Populated t) (i : Nat) (r : TableRow)
    (hr : t.rows[i]? = some r) : ∃ a b, r.name = some a ∧ r.version = some b := by
  have hmem : r ∈ t.rows := List.getElem?_mem hr
  obtain ⟨h1, h2⟩ := h r hmem
  obtain ⟨a, ha⟩ := Option.isSome_iff_exists.1 h1
  obtain ⟨b, hb⟩ := Option.isSome_iff_exists.1 h2
  exact ⟨a, b, ha, hb⟩

theorem setRowHidden_rows_getElem? (row : Nat) (hide : Bool) (t : QTableWidget) (j : Nat) :
    (t.setRowHidden row hide).rows[j]?
      = if j = row then (t.rows[j]?).map (fun r => { r with hidden := hide })
        else t.rows[j]? := by
  unfold QTableWidget.setRowHidden
  cases hr : t.rows[row]? with
  | none =>
    by_cases hj : j = row
    · subst hj
      simp [hr]
    · simp [hj]
  | some r =>
    by_cases hj : j = row
    · subst hj
      have hlt : j < t.rows.length := by
        rcases List.getElem?_eq_some.1 hr with ⟨hlt, _⟩
        exact hlt
      simp [List.getElem?_set, hr, hlt]
    · have hj' : ¬ row = j := fun e => hj e.symm
      simp [List.getElem?_set, hj, hj']

theorem setRowHidden_length (row : Nat) (hide : Bool) (t : QTableWidget) :
    (t.setRowHidden row hide).rows.length = t.rows.length := by
  unfold QTableWidget.setRowHidden
  cases t.rows[row]? <;> simp

theorem setRowHidden_populated (row : Nat) (hide : Bool) (t : QTableWidget)
    (h : Populated t) : Populated (t.setRowHidden row hide) := by
  intro r hr
  obtain ⟨j, hj⟩ := List.mem_iff_getElem?.1 hr
  rw [setRowHidden_rows_getElem?] at hj
  by_cases hjr : j = row
  · rw [if_pos hjr] at hj
    cases hold : t.rows[j]? with
    | none => simp [hold] at hj
    | some r0 =>
      simp only [hold, Option.map_some', Option.some.injEq] at hj
      subst hj
      exact h r0 (List.getElem?_mem hold)
  · rw [if_neg hjr] at hj
    exact h r (List.getElem?_mem hj)

theorem searchRow_populated (t : QTableWidget) (s : QString) (i : Nat) (r : TableRow)
    (a b : QTableWidgetItem) (hr : t.rows[i]? = some r) (ha : r.name = some a)
    (hb : r.version = some b) :
    searchRow t s i (List.range t.columnCount) = some (rowFound s r) := by
  have hrange : List.range t.columnCount = [0, 1] := rfl
  obtain ⟨h0, h1⟩ := item_eq t i r hr
  rw [hrange]
  simp only [searchRow, h0, h1, ha, hb, rowFound]
  by_cases c1 : contains a.text s = true
  · simp [c1]
  · by_cases c2 : contains b.text s = true
    · simp [c1, c2]
    · simp [c1, c2]

theorem hideBy_setHidden (s : QString) (r : TableRow) (hide : Bool) :
    hideBy s { r with hidden := hide } = hideBy s r := rfl

/-- The loop of the non-empty branch returns, and hides exactly the rows it visits that
hold the search string in no cell. -/
theorem searchLoop_rows (s : QString) (is : List Nat) (t : QTableWidget) (hpop : Populated t)
    (hin : ∀ i ∈ is, i < t.rows.length) :
    ∃ t', searchLoop s is t = some t' ∧
      ∀ j, t'.rows[j]? = if j ∈ is then (t.rows[j]?).map (hideBy s) else t.rows[j]? := by
  induction is generalizing t with
  | nil => exact ⟨t, rfl, fun j => by simp⟩
  | cons i is ih =>
    have hi : i < t.rows.length := hin i (List.mem_cons_self _ _)
    have hr : t.rows[i]? = some t.rows[i] := List.getElem?_eq_getElem hi
    obtain ⟨a, b, ha, hb⟩ := populated_getElem? t hpop i _ hr
    have hrow := searchRow_populated t s i _ a b hr ha hb
    have hin' : ∀ k ∈ is, k < (t.setRowHidden i (!rowFound s t.rows[i])).rows.length := by
      intro k hk
      rw [setRowHidden_length]
      exact hin k (List.mem_cons_of_mem _ hk)
    obtain ⟨t', ht', hrows⟩ := ih (t.setRowHidden i (!rowFound s t.rows[i]))
      (setRowHidden_populated _ _ _ hpop) hin'
    refine ⟨t', ?_, ?_⟩
    · simp only [searchLoop, hrow]
      exact ht'
    · intro j
      rw [hrows j, setRowHidden_rows_getElem?]
      by_cases hji : j = i
      · subst hji
        by_cases hmem : j ∈ is
        · simp [hmem, hr, hideBy_setHidden]
        · simp [hmem, hr, hideBy]
      · by_cases hmem : j ∈ is
        · simp [hmem, hji]
        · simp [hmem, hji]

theorem unhideLoop_rows (is : List Nat) (t : QTableWidget) (j : Nat) :
    (is.foldl (fun t i => t.setRowHidden i false) t).rows[j]?
      = if j ∈ is then (t.rows[j]?).map (fun r => { r with hidden := false })
        else t.rows[j]? := by
  induction is generalizing t with
  | nil => simp
  | cons i is ih =>
    rw [List.foldl_cons, ih, setRowHidden_rows_getElem?]
    by_cases hji : j = i
    · subst hji
      by_cases hmem : j ∈ is
      · cases t.rows[j]? <;> simp [hmem]
      · simp [hmem]
    · by_cases hmem : j ∈ is
      · simp [hmem, hji]
      · simp [hmem, hji]

theorem rowFound_iff (s : QString) (r : TableRow) :
    rowFound s r = true
      ↔ ∃ cell, (r.name = some cell ∨ r.version = some cell) ∧ s <:+: cell.text := by
  unfold rowFound
  rw [Bool.or_eq_true]
  constructor
  · rintro (h | h)
    · cases hn : r.name with
      | none => simp [hn] at h
      | some a =>
        simp only [hn] at h
        exact ⟨a, Or.inl rfl, (contains_iff _ _).1 h⟩
    · cases hv : r.version with
      | none => simp [hv] at h
      | some b =>
        simp only [hv] at h
        exact ⟨b, Or.inr rfl, (contains_iff _ _).1 h⟩
  · rintro ⟨cell, hc | hc, hinf⟩
    · left
      simp only [hc]
      exact (contains_iff _ _).2 hinf
    · right
      simp only [hc]
      exact (contains_iff _ _).2 hinf

/-- On a table with an item in every cell the search returns, and rewrites only the hidden
flags, row by row. -/
theorem handleSearch_rows (pm : State) (hpop : Populated pm.installedPackagesView) :
    ∃ pm', handleSearch pm = some pm' ∧
      pm'.installedPackagesView.rows = pm.installedPackagesView.rows.map
        (fun r => if pm.searchBar = [] then { r with hidden := false }
          else hideBy pm.searchBar r) := by
  by_cases hs : pm.searchBar = []
  · have hret : ∃ pm', handleSearch pm = some pm' ∧ pm'.installedPackagesView
        = (List.range pm.installedPackagesView.rowCount).foldl
            (fun t i => t.setRowHidden i false) pm.installedPackagesView := by
      simp [handleSearch, hs]
    obtain ⟨pm', hpm', hview⟩ := hret
    refine ⟨pm', hpm', ?_⟩
    rw [hview]
    apply List.ext_getElem?
    intro j
    simp only [unhideLoop_rows, QTableWidget.rowCount, List.mem_range, List.getElem?_map, hs,
      if_true]
    by_cases hj : j < pm.installedPackagesView.rows.length
    · simp [hj]
    · have : pm.installedPackagesView.rows[j]? = none := List.getElem?_eq_none (by omega)
      simp [hj, this]
  · obtain ⟨t', ht', hrows⟩ := searchLoop_rows pm.searchBar
      (List.range pm.installedPackagesView.rowCount) pm.installedPackagesView hpop
      (fun i hi => by simpa [QTableWidget.rowCount] using hi)
    have hse : pm.searchBar.isEmpty = false := by
      cases hb : pm.searchBar with
      | nil => exact absurd hb hs
      | cons c cs => rfl
    refine ⟨{ pm with installedPackagesView := t' }, by simp [handleSearch, hse, ht'], ?_⟩
    apply List.ext_getElem?
    intro j
    simp only [hrows, QTableWidget.rowCount, List.mem_range, List.getElem?_map, hs, if_false]
    by_cases hj : j < pm.installedPackagesView.rows.length
    · simp [hj]
    · have : pm.installedPackagesView.rows[j]? = none := List.getElem?_eq_none (by omega)
      simp [hj, this]

/-- C6: on a table of package rows (an item in every cell) `handleSearch` returns, keeps
the row count and every item, and for a non-empty search string leaves a row visible if
and only if one of its two cells contains the string as a substring, characters compared
exactly; for the empty search string every row is visible afterwards. -/
theorem handleSearch_filter (pm : State) (hpop : Populated pm.installedPackagesView) :
    ∃ pm', handleSearch pm = some pm' ∧
      pm'.installedPackagesView.rowCount = pm.installedPackagesView.rowCount ∧
      ∀ (i : Nat) (r : TableRow), pm.installedPackagesView.rows[i]? = some r →
        ∃ r' : TableRow, pm'.installedPackagesView.rows[i]? = some r' ∧
          r'.name = r.name ∧ r'.version = r.version ∧
          (pm.searchBar = [] → r'.hidden = false) ∧
          (pm.searchBar ≠ [] →
            (r'.hidden = false ↔
              ∃ cell, (r.name = some cell ∨ r.version = some cell) ∧
                pm.searchBar <:+: cell.text)) := by
  obtain ⟨pm', hpm', hrows⟩ := handleSearch_rows pm hpop
  refine ⟨pm', hpm', ?_, ?_⟩
  · simp [QTableWidget.rowCount, hrows]
  · intro i r hr
    rw [hrows, List.getElem?_map, hr]
    refine ⟨_, rfl, ?_⟩
    by_cases hs : pm.searchBar = []
    · simp [hs]
    · simp only [hs, if_false, hideBy, false_implies, ne_eq, not_false_eq_true, true_implies,
        true_and]
      rw [← rowFound_iff]
      simp

/-- Witness for C6: the search for `2.3` in the three rows of `listedState` returns and
keeps the three rows. -/
theorem handleSearch_filter_witness :
    Populated searchState.installedPackagesView ∧
    ∃ pm', handleSearch searchState = some pm' ∧
      pm'.installedPackagesView.rowCount = 3 := by
  have hpop : Populated searchState.installedPackagesView := by
    unfold Populated
    decide
  obtain ⟨pm', h1, h2, _⟩ := handleSearch_filter searchState hpop
  exact ⟨hpop, pm', h1, h2.trans (by decide)⟩

/-! ## The commands the handlers launch -/

theorem refresh_launched (env : Env) (pm : State) :
    (refreshInstalledPackagesList env pm).launched = pm.launched ++ [listArgs] := by
  simp only [refreshInstalledPackagesList, runToEnd, start, onStarted, onFinished, setBusy]
  split_ifs <;> rfl

theorem executeCommand_launched (env : Env) (arguments : List QString) (pm : State) :
    (executeCommand env arguments pm).launched = pm.launched ++ [arguments] := rfl

theorem executeCommand_view (env : Env) (arguments : List QString) (pm : State) :
    (executeCommand env arguments pm).installedPackagesView = pm.installedPackagesView := rfl

theorem logFailure_launched (msg : String) (pm : State) :
    (logFailure msg pm).launched = pm.launched := by
  unfold logFailure
  split_ifs <;> rfl

theorem logFailure_view (msg : String) (pm : State) :
    (logFailure msg pm).installedPackagesView = pm.installedPackagesView := by
  unfold logFailure
  split_ifs <;> rfl

theorem uninstallLoop_view (question : Nat → QString → StandardButton) (env : Env) (k : Nat)
    (items : List QTableWidgetItem) (pm : State) :
    (uninstallLoop question env k items pm).installedPackagesView
      = pm.installedPackagesView := by
  induction items generalizing k pm with
  | nil => rfl
  | cons item rest ih =>
    unfold uninstallLoop
    by_cases hyes : question k item.text = StandardButton.Yes
    · simp only [hyes, ne_eq, not_true_eq_false, if_false]
      rw [ih, logFailure_view, executeCommand_view]
    · simp only [hyes, ne_eq, not_false_eq_true, if_true]
      rw [ih]

/-- C8: when the name dialog is cancelled or returns the empty string,
`handleInstallPackage` changes nothing, so it launches no command and leaves the table as
it is; for an accepted non-empty name it launches `-m pip install <name>` and then
`-m pip list`, these two commands and no other, whatever the exit code of the install. -/
theorem handleInstallPackage_commands (ok : Bool) (packageName : QString) (env : Env)
    (pm : State) :
    ((ok = false ∨ packageName = []) → handleInstallPackage ok packageName env pm = pm) ∧
    (ok = true → packageName ≠ [] →
      (handleInstallPackage ok packageName env pm).launched
        = pm.launched ++ [["-m".toList, "pip".toList, "install".toList, packageName],
            ["-m".toList, "pip".toList, "list".toList]]) := by
  constructor
  · rintro (h | h)
    · simp [handleInstallPackage, h]
    · simp [handleInstallPackage, h]
  · intro hok hname
    have he : packageName.isEmpty = false := by
      cases packageName with
      | nil => exact absurd rfl hname
      | cons x xs => rfl
    simp only [handleInstallPackage, hok, he]
    simp only [Bool.not_true, Bool.or_self, Bool.false_eq_true, if_false]
    rw [refresh_launched, logFailure_launched, executeCommand_launched]
    simp [installArgs, listArgs]

/-- Witness for C8: a cancelled dialog leaves the constructor's state as it is, and the
accepted name `numpy` launches the install and the listing, with an install that ends with
exit code 1. -/
theorem handleInstallPackage_commands_witness :
    handleInstallPackage false "numpy".toList failingEnv initial = initial ∧
    (handleInstallPackage true "numpy".toList failingEnv initial).launched
      = [installArgs "numpy".toList, listArgs] :=
  ⟨(handleInstallPackage_commands false "numpy".toList failingEnv initial).1 (Or.inl rfl),
   (handleInstallPackage_commands true "numpy".toList failingEnv initial).2 rfl (by decide)⟩

/-! ## The busy flag -/

/-- C9 fails on the code at this input: from the listed state, `started` followed by a
selection change to one item leaves the process running and the install button disabled,
but the uninstall button enabled. -/
theorem uninstall_enabled_while_running :
    (selectWhileRunning.foldl step listedState).running = true ∧
    (selectWhileRunning.foldl step listedState).installBtnEnabled = false ∧
    (selectWhileRunning.foldl step listedState).uninstallBtnEnabled = true := by
  decide

theorem step_install_disabled (pm : State) (e : Event)
    (h : pm.running = true → pm.installBtnEnabled = false) :
    (step pm e).running = true → (step pm e).installBtnEnabled = false := by
  cases e with
  | started => intro _; rfl
  | finished exitCode exitStatus => intro hrun; cases hrun
  | selectionChanged selectedItems => exact h

/-- The part of C9 that holds: after any sequence of the three signals the install button
is disabled whenever the process is running. -/
theorem install_disabled_while_running (events : List Event) (pm : State)
    (h : pm.running = true → pm.installBtnEnabled = false) :
    (events.foldl step pm).running = true → (events.foldl step pm).installBtnEnabled = false := by
  induction events generalizing pm with
  | nil => exact h
  | cons e es ih => exact ih (step pm e) (step_install_disabled pm e h)

/-! ## Every reachable table has an item in every cell -/

theorem refresh_populated (env : Env) (pm : State) (h : Populated pm.installedPackagesView) :
    Populated (refreshInstalledPackagesList env pm).installedPackagesView := by
  by_cases hexit : (listRun env pm).exitStatus = ExitStatus.NormalExit
  · by_cases hlen : 3 < (listLines env pm).length
    · intro r hr
      obtain ⟨j, hj⟩ := List.mem_iff_getElem?.1 hr
      rw [refresh_rows_getElem? env pm hexit hlen] at hj
      by_cases hlt : j < (listLines env pm).length - 3
      · rw [if_pos hlt] at hj
        cases hold : (pm.installedPackagesView.setRowCount
            ((listLines env pm).length - 3)).rows[j]? with
        | none => simp [hold] at hj
        | some r0 =>
          simp only [hold, Option.map_some', Option.some.injEq] at hj
          subst hj
          exact ⟨rfl, rfl⟩
      · rw [if_neg hlt] at hj
        cases hj
    · rw [refresh_unchanged env pm (Or.inr (by omega))]
      exact h
  · rw [refresh_unchanged env pm (Or.inl hexit)]
    exact h

theorem reachable_populated (pm : State) (h : Reachable pm) :
    Populated pm.installedPackagesView := by
  induction h with
  | init => intro r hr; cases hr
  | refresh env pm _ ih => exact refresh_populated env pm ih
  | install ok packageName env pm _ ih =>
    unfold handleInstallPackage
    split_ifs
    · exact ih
    · apply refresh_populated
      rw [logFailure_view, executeCommand_view]
      exact ih
  | uninstall selectedItems question env pm _ ih =>
    unfold handleUninstallPackage
    split_ifs
    · exact ih
    · apply refresh_populated
      rw [uninstallLoop_view]
      exact ih
  | edit text pm _ ih => exact ih
  | search pm pm' _ hs ih =>
    obtain ⟨pm'', h1, h2⟩ := handleSearch_rows pm ih
    rw [h1] at hs
    cases hs
    intro r hr
    rw [h2] at hr
    obtain ⟨r0, hr0, hr1⟩ := List.mem_map.1 hr
    obtain ⟨hn, hv⟩ := ih r0 hr0
    subst hr1
    split_ifs
    · exact ⟨hn, hv⟩
    · exact ⟨hn, hv⟩
  | signal e pm _ ih =>
    cases e <;> exact ih

/-- C10: the pattern matches every string at offset 0, so `indexIn` never returns -1 and
the loop body always sets both items of its row; hence in every reachable state each row
below `rowCount` has an item in both columns, and `handleSearch` returns for every search
text, never calling `text()` on a missing item. -/
theorem reachable_cells_present (pm : State) (h : Reachable pm) :
    (∀ str : QString, (listRegex.indexIn str).1 = 0) ∧
    (∀ (lines : List QString) (table : QTableWidget) (i : Nat),
      parseLine listRegex lines table i
        = setRowItems (listRegex.indexIn (lines.getD i [])).2 i table) ∧
    (∀ i, i < pm.installedPackagesView.rowCount →
      (pm.installedPackagesView.item i 0).isSome = true ∧
      (pm.installedPackagesView.item i 1).isSome = true) ∧
    (∀ text : QString, (handleSearch { pm with searchBar := text }).isSome = true) := by
  have hpop := reachable_populated pm h
  have hidx : ∀ str : QString, (listRegex.indexIn str).1 = 0 := by
    intro str
    obtain ⟨whole, third, hm⟩ := indexIn_listRegex str
    rw [hm]
  refine ⟨hidx, ?_, ?_, ?_⟩
  · intro lines table i
    unfold parseLine
    simp [hidx]
  · intro i hi
    have hr : pm.installedPackagesView.rows[i]? = some pm.installedPackagesView.rows[i] :=
      List.getElem?_eq_getElem hi
    obtain ⟨h0, h1⟩ := item_eq _ _ _ hr
    obtain ⟨hn, hv⟩ := hpop _ (List.getElem?_mem hr)
    rw [h0, h1]
    exact ⟨hn, hv⟩
  · intro text
    obtain ⟨pm', h1, _⟩ := handleSearch_rows { pm with searchBar := text } hpop
    rw [h1]
    rfl

/-- Witness for C10: the state after the constructor's refresh is reachable, so its three
rows have their items and a search for `foo` returns. -/
theorem reachable_cells_present_witness :
    Reachable listedState ∧
    (listedState.installedPackagesView.item 2 0).isSome = true ∧
    (handleSearch { listedState with searchBar := "foo".toList }).isSome = true :=
  ⟨Reachable.refresh _ _ Reachable.init,
   ((reachable_cells_present listedState (Reachable.refresh _ _ Reachable.init)).2.2.1 2
     (by decide)).1,
   (reachable_cells_present listedState (Reachable.refresh _ _ Reachable.init)).2.2.2
     "foo".toList⟩

end PackageManager
